import Mathlib

/-!
Verification of the SRP client core (`aws_srp.rs`).

Modelling conventions:
* Rust machine integers (`u128`) are `Nat` with explicit `% 2 ^ 128` / bound
  checks where overflow matters; `i32` arguments are `Int`.
* Rust `String` / `&str` is Lean `String`; byte slices (`&[u8]`, `Vec<u8>`)
  are `List Nat` with values below 256.
* The SHA-256 / HMAC-SHA256 primitives live in external crates (`ring`,
  `sha2`, `hkdf`); they are taken as function parameters so that theorems
  quantify over the primitive, assuming only its digest size.
* The random source behind `rand::thread_rng().gen::<u128>()` is modelled by
  an explicit state: the 128-bit value the generator yields for this call.
-/

namespace AwsSrp

/-- Value of one hex digit, as Rust's `char::to_digit(16)`: accepts `0`-`9`,
`a`-`f` and `A`-`F`, in terms of the character's code point. -/
def hexDigitVal? (c : Char) : Option Nat :=
  if 48 ≤ c.toNat ∧ c.toNat ≤ 57 then some (c.toNat - 48)
  else if 97 ≤ c.toNat ∧ c.toNat ≤ 102 then some (c.toNat - 87)
  else if 65 ≤ c.toNat ∧ c.toNat ≤ 70 then some (c.toNat - 55)
  else none

/-- Total version of `hexDigitVal?`, defaulting to 0; used to state values of
all-hex-digit strings. -/
def hexVal (c : Char) : Nat :=
  (hexDigitVal? c).getD 0

/-- Numeric value of a list of hex digit characters, most significant first. -/
def hexListVal (l : List Char) : Nat :=
  l.foldl (fun a c => a * 16 + hexVal c) 0

/-- Uppercase hex digit character, as produced by Rust's `{:X}` formatting. -/
def digitCharUpper (n : Nat) : Char :=
  if n < 10 then Char.ofNat (48 + n) else Char.ofNat (55 + n)

/-- Digit-emitting loop of Rust's `{:X}` formatting of an unsigned integer,
structurally recursive on a fuel argument (the source loops until the
remaining value is zero). -/
def toHexCore : Nat → Nat → List Char → List Char
  | 0, _, ds => ds
  | fuel + 1, n, ds =>
    let d := digitCharUpper (n % 16)
    if n / 16 = 0 then d :: ds else toHexCore fuel (n / 16) (d :: ds)

/-- `long_to_hex`: `format!("{:X}", long)` — uppercase hex, no padding,
`"0"` for zero. -/
def long_to_hex (long : Nat) : String :=
  String.mk (toHexCore (long + 1) long [])

/-- Error kinds of Rust's `ParseIntError` relevant to `u128::from_str_radix`. -/
inductive ParseIntError where
  | empty
  | invalidDigit
  | posOverflow
  deriving DecidableEq, Repr

/-- Digit loop of `u128::from_str_radix(s, 16)`: checked multiply by the
radix, digit lookup, checked add, first failure wins. -/
def parseLoop : List Char → Nat → Except ParseIntError Nat
  | [], acc => .ok acc
  | c :: cs, acc =>
    if 2 ^ 128 ≤ acc * 16 then .error .posOverflow
    else
      match hexDigitVal? c with
      | none => .error .invalidDigit
      | some d =>
        if 2 ^ 128 ≤ acc * 16 + d then .error .posOverflow
        else parseLoop cs (acc * 16 + d)

/-- Character-level body of `u128::from_str_radix(_, 16)`: the empty string
is `Empty`; a leading `+` is stripped (a bare `"+"` is `InvalidDigit`); for
the unsigned type a `-` falls through to digit parsing and fails there. -/
def hexToLongAux : List Char → Except ParseIntError Nat
  | [] => .error .empty
  | c :: cs =>
    if c = '+' then
      if cs.isEmpty then .error .invalidDigit else parseLoop cs 0
    else parseLoop (c :: cs) 0

/-- `hex_to_long`: `u128::from_str_radix(hex_str, 16)`. -/
def hex_to_long (hex_str : String) : Except ParseIntError Nat :=
  hexToLongAux hex_str.data

/-- The character list of the input after the optional leading `+` sign that
`from_str_radix` strips; used to state exactly when `hex_to_long` succeeds. -/
def stripLeadPlus (l : List Char) : List Char :=
  match l with
  | [] => []
  | c :: cs => if c = '+' then cs else c :: cs

/-- The characters `0`-`9` and `A`-`F`, the digit alphabet `{:X}` prints. -/
def isUpperHexDigit (c : Char) : Prop :=
  (48 ≤ c.toNat ∧ c.toNat ≤ 57) ∨ (65 ≤ c.toNat ∧ c.toNat ≤ 70)

instance (c : Char) : Decidable (isUpperHexDigit c) := by
  unfold isUpperHexDigit
  infer_instance

/-- The argument of `pad_hex`: Rust enum `StringOrLong`. -/
inductive StringOrLong where
  | long : Nat → StringOrLong
  | str : String → StringOrLong

/-- Body of `pad_hex` acting on the already-extracted hex string: prepend
`"0"` on odd length, else prepend `"00"` when the first character is one of
`89ABCDEFabcdef`, else return unchanged. -/
def padString (hash_str : String) : String :=
  if hash_str.length % 2 = 1 then "0" ++ hash_str
  else if "89ABCDEFabcdef".data.any (fun s => hash_str.data.head? == some s) then
    "00" ++ hash_str
  else hash_str

/-- `pad_hex`: formats the `Long` variant with `long_to_hex`, then applies the
padding rule. -/
def pad_hex (val : StringOrLong) : String :=
  padString
    (match val with
     | .long long => long_to_hex long
     | .str str_val => str_val)

/-- `get_random`: `rand::thread_rng().gen::<u128>()`.  The random source is
modelled by `rngState`, the 128-bit value the generator yields for this call;
the `num_bytes` argument does not occur in the body. -/
def get_random (num_bytes : Int) (rngState : Nat) : Nat :=
  rngState % 2 ^ 128

/-- The constant `N_HEX` of the source (line-continuations concatenated). -/
def N_HEX : String :=
  "FFFFFFFFFFFFFFFFC90FDAA22168C234C4C6628B80DC1CD129024E088A67CC74020BBEA63B139B22514A08798E3404DDEF9519B3CD3A431B302B0A6DF25F14374FE1356D6D51C245E485B576625E7EC6F44C42E9A637ED6B0BFF5CB6F406B7EDEE386BFB5A899FA5AE9F24117C4B1FE649286651ECE45B3DC2007CB8A163BF0598DA48361C55D39A69163FA8FD24CF5F83655D23DCA3AD961C62F356208552BB9ED529077096966D670C354E4ABC9804F1746C08CA18217C32905E462E36CE3BE39E772C180E86039B2783A2EC07A28FB5C55DF06F4C52C9DE2BCBF6955817183995497CEA956AE515D2261898FA051015728E5A8AAAC42DAD33170D04507A33A85521ABDF1CBA64ECFB850458DBEF0A8AEA71575D060C7DB3970F85A6E1E4C7ABF5AE8CDB0933D71E8C94E04A25619DCEE3D2261AD2EE6BF12FFA06D98A0864D87602733EC86A64521F2B18177B200CBBE117577A615D6C770988C0BAD946E208E24FA074E5AB3143DB5BFCE0FD108E4B82D120A93AD2CAFFFFFFFFFFFFFFFF"

/-- The 3072-bit group modulus denoted by `N_HEX` (the source declares the
constant but contains no code parsing it; the numeral below spells the same
hex digits). -/
def Nval : Nat :=
  0xFFFFFFFFFFFFFFFFC90FDAA22168C234C4C6628B80DC1CD129024E088A67CC74020BBEA63B139B22514A08798E3404DDEF9519B3CD3A431B302B0A6DF25F14374FE1356D6D51C245E485B576625E7EC6F44C42E9A637ED6B0BFF5CB6F406B7EDEE386BFB5A899FA5AE9F24117C4B1FE649286651ECE45B3DC2007CB8A163BF0598DA48361C55D39A69163FA8FD24CF5F83655D23DCA3AD961C62F356208552BB9ED529077096966D670C354E4ABC9804F1746C08CA18217C32905E462E36CE3BE39E772C180E86039B2783A2EC07A28FB5C55DF06F4C52C9DE2BCBF6955817183995497CEA956AE515D2261898FA051015728E5A8AAAC42DAD33170D04507A33A85521ABDF1CBA64ECFB850458DBEF0A8AEA71575D060C7DB3970F85A6E1E4C7ABF5AE8CDB0933D71E8C94E04A25619DCEE3D2261AD2EE6BF12FFA06D98A0864D87602733EC86A64521F2B18177B200CBBE117577A615D6C770988C0BAD946E208E24FA074E5AB3143DB5BFCE0FD108E4B82D120A93AD2CAFFFFFFFFFFFFFFFF

/-- The two uppercase hex digit characters of one byte, high nibble first, as
the hex crate's `encode_upper` prints each byte. -/
def byteToHexUpper (b : Nat) : List Char :=
  [digitCharUpper (b / 16), digitCharUpper (b % 16)]

/-- `hex::encode_upper`: every byte becomes two uppercase hex digits. -/
def encode_upper (bytes : List Nat) : String :=
  String.mk (bytes.map byteToHexUpper).flatten

/-- `hex::decode`: fails on odd length or on a character that is not a hex
digit, else pairs characters into bytes. -/
def decodeHexChars : List Char → Except Unit (List Nat)
  | [] => .ok []
  | [_] => .error ()
  | a :: b :: rest =>
    match hexDigitVal? a, hexDigitVal? b, decodeHexChars rest with
    | some hi, some lo, .ok bs => .ok ((hi * 16 + lo) :: bs)
    | _, _, _ => .error ()

/-- `hash_sha256`: the ring SHA-256 digest of a byte buffer, hex-encoded
uppercase.  The digest primitive itself is external; it is the parameter
`sha`, assumed elsewhere to produce 32 bytes. -/
def hash_sha256 (sha : List Nat → List Nat) (buf : List Nat) : String :=
  encode_upper (sha buf)

/-- `hex_hash`: decode the hex string into bytes, hash them, re-encode the
digest uppercase; hex decoding failure propagates. -/
def hex_hash (sha : List Nat → List Nat) (hex_str : String) : Except Unit String :=
  match decodeHexChars hex_str.data with
  | .error e => .error e
  | .ok hex_val => .ok (hash_sha256 sha hex_val)

/-- Digit loop of num-bigint's `from_str_radix`: arbitrary precision, so the
only failure is a non-hex-digit character. -/
def bigParseLoop : List Char → Nat → Except Unit Nat
  | [], acc => .ok acc
  | c :: cs, acc =>
    match hexDigitVal? c with
    | none => .error ()
    | some d => bigParseLoop cs (acc * 16 + d)

/-- `BigUint::from_str_radix(s, 16)`: one optional leading `+`, then a
nonempty run of hex digits. -/
def biguint_from_str_radix (s : String) : Except Unit Nat :=
  if (stripLeadPlus s.data).isEmpty then .error ()
  else bigParseLoop (stripLeadPlus s.data) 0

/-- `calculate_u`: SHA-256 hash of the concatenated padded hex forms of
`big_a` and `big_b`, re-parsed as a big integer (errors from hashing and
parsing are both anyhow errors in the source, merged here into `Unit`). -/
def calculate_u (sha : List Nat → List Nat) (big_a big_b : Nat) :
    Except Unit Nat :=
  match hex_hash sha (pad_hex (.long big_a) ++ pad_hex (.long big_b)) with
  | .error e => .error e
  | .ok val => biguint_from_str_radix val

/-- The constant `INFO_BITS`: the bytes of `"Caldera Derived Key"`. -/
def INFO_BITS : List Nat :=
  "Caldera Derived Key".data.map Char.toNat

/-- Block stream of RFC 5869 HKDF-Expand as the hkdf crate computes it with
SHA-256: the pair is `(T(i), T(1) ++ ... ++ T(i))`, where
`T(i+1) = HMAC(prk, T(i) ++ info ++ [i+1])` and `T(0)` is empty.  The HMAC
primitive is the parameter `hmac` (key, then message). -/
def hkdfBlocks (hmac : List Nat → List Nat → List Nat) (prk info : List Nat) :
    Nat → List Nat × List Nat
  | 0 => ([], [])
  | i + 1 =>
    let p := hkdfBlocks hmac prk info i
    let t := hmac prk (p.1 ++ info ++ [i + 1])
    (t, p.2 ++ t)

/-- `Hkdf::expand` with SHA-256: fails exactly when the requested output
length exceeds 255 blocks of 32 bytes, else takes `len` bytes from the block
stream (`(len + 31) / 32` blocks are produced). -/
def hkdfExpand (hmac : List Nat → List Nat → List Nat) (prk info : List Nat)
    (len : Nat) : Except Unit (List Nat) :=
  if 255 * 32 < len then .error ()
  else .ok ((hkdfBlocks hmac prk info ((len + 31) / 32)).2.take len)

/-- `compute_hkdf`: `Hkdf::<Sha256>::new(Some(salt), ikm)` (extract: HMAC
keyed by the salt over the ikm), then one `expand` call with info
`INFO_BITS ++ [0x01]` into a 16-byte buffer.  The source unwraps the expand
result, so the model exposes the possible panic as `Option`. -/
def compute_hkdf (hmac : List Nat → List Nat → List Nat) (ikm salt : List Nat) :
    Option (List Nat) :=
  (hkdfExpand hmac (hmac salt ikm) (INFO_BITS ++ [1]) 16).toOption

/-- The spec's own description of the key derivation (refinement reference,
worded from the spec, to be compared with `compute_hkdf`): HKDF extract with
the salt (`PRK = HMAC(salt, ikm)`), then a single expand call whose info is
the string `"Caldera Derived Key"` followed by the byte `0x01`, truncated to
exactly 16 bytes.  Per RFC 5869 a single 16-byte expand is the first 16
bytes of `T(1) = HMAC(PRK, info ++ [0x01])`, the final `0x01` being the
block counter, so the closed form below ends in two `0x01` bytes: the one
belonging to the info and the block counter. -/
def hkdfSpecDescription (hmac : List Nat → List Nat → List Nat)
    (ikm salt : List Nat) : List Nat :=
  (hmac (hmac salt ikm)
    (("Caldera Derived Key".data.map Char.toNat ++ [1]) ++ [1])).take 16

/-- The error kind the spec prescribes for protocol-mandated safety checks. -/
inductive SrpError where
  | protocolError
  deriving DecidableEq, Repr

/-- Modelled from the spec: `computeS` is absent from the source (spec §9:
the reference source never implements the full `S`/proof sequence).  Per
§4.3 it fails with `ProtocolError` if `B mod N == 0` — rejecting before
computing anything — or if `u == 0`, and otherwise computes
`(B - k * g^x)^(a + u*x) mod N` per §3. -/
def computeS (B k g x a u N : Nat) : Except SrpError Int :=
  if B % N = 0 then .error .protocolError
  else if u = 0 then .error .protocolError
  else .ok ((((B : Int) - (k : Int) * (g : Int) ^ x) ^ (a + u * x)) % (N : Int))

deriving instance DecidableEq for Except

set_option maxRecDepth 10000 in
theorem N_HEX_denotes_Nval : hexListVal N_HEX.data = Nval := by decide

theorem pad_hex_long_vector : pad_hex (.long 1234) = "04D2" := by decide

theorem hex_to_long_vector : hex_to_long "ABC123" = .ok 11256099 := by decide

theorem long_to_hex_vector : long_to_hex 11256099 = "ABC123" := by decide

theorem padString_length_even (h : String) : (padString h).length % 2 = 0 := by
  unfold padString
  split
  · rename_i h1
    rw [String.length_append]
    have e : ("0" : String).length = 1 := rfl
    omega
  · split
    · rename_i h1 h2
      rw [String.length_append]
      have e : ("00" : String).length = 2 := rfl
      omega
    · rename_i h1 h2
      omega

theorem padString_head_not_high (h : String) :
    ("89ABCDEFabcdef".data.any fun s => (padString h).data.head? == some s) = false := by
  unfold padString
  split
  · have hd : ("0" ++ h).data.head? = some '0' := by
      rw [String.data_append]
      rfl
    simp only [hd]
    decide
  · split
    · have hd : ("00" ++ h).data.head? = some '0' := by
        rw [String.data_append]
        rfl
      simp only [hd]
      decide
    · rename_i h1 h2
      simpa using h2

theorem padString_eq_self (x : String) (h1 : x.length % 2 = 0)
    (h2 : ("89ABCDEFabcdef".data.any fun s => x.data.head? == some s) = false) :
    padString x = x := by
  unfold padString
  rw [if_neg (by omega), if_neg (by simp [h2])]

theorem padString_idem (h : String) : padString (padString h) = padString h :=
  padString_eq_self _ (padString_length_even h) (padString_head_not_high h)

/-- C6: `pad_hex` is idempotent — for every input `v`, applying `pad_hex` to
the (string) result of `pad_hex v` returns `pad_hex v` unchanged. -/
theorem pad_hex_idem (v : StringOrLong) :
    pad_hex (.str (pad_hex v)) = pad_hex v :=
  padString_idem _

/-- C7: `pad_hex` maps the fixed test vectors as specified: the empty string
is unchanged (no padding, no error), `"8F"` gains a `"00"` byte, `"8F1"` a
single `"0"`, and `"77"` is unchanged. -/
theorem pad_hex_test_vectors :
    pad_hex (.str "") = "" ∧ pad_hex (.str "8F") = "008F" ∧
      pad_hex (.str "8F1") = "08F1" ∧ pad_hex (.str "77") = "77" := by
  refine ⟨by decide, by decide, by decide, by decide⟩

/-- C1 (counterexample): the claim that every `get_random` result lies in
`[1, N)` fails — at the random-source state that yields 0, `get_random`
returns 0. -/
theorem get_random_zero_possible :
    get_random 16 0 = 0 ∧ ¬ (1 ≤ get_random 16 0 ∧ get_random 16 0 < Nval) := by
  constructor
  · rfl
  · intro hc
    have h1 := hc.1
    simp [get_random] at h1

/-- C1 (amended): every value `get_random` can return is strictly below the
modulus `N` (it is a 128-bit value and `N` is 3072 bits), but it can be zero,
so membership in `[1, N)` holds only in the upper bound. -/
theorem get_random_lt_N (num_bytes : Int) (rngState : Nat) :
    get_random num_bytes rngState < Nval := by
  have h1 : rngState % 2 ^ 128 < 2 ^ 128 := Nat.mod_lt _ (by positivity)
  have h2 : (2 : Nat) ^ 128 < Nval := by decide
  exact lt_trans h1 h2

/-- C10: the `num_bytes` argument of `get_random` has no effect on the
result — for the same random-source state, any two argument values give the
identical value. -/
theorem get_random_ignores_num_bytes (n₁ n₂ : Int) (rngState : Nat) :
    get_random n₁ rngState = get_random n₂ rngState := rfl

theorem hexVal_lt_16 (c : Char) : hexVal c < 16 := by
  unfold hexVal hexDigitVal?
  split_ifs with h1 h2 h3 <;> simp <;> omega

theorem le_foldl_parse (l : List Char) (acc : Nat) :
    acc ≤ l.foldl (fun a c => a * 16 + hexVal c) acc := by
  induction l generalizing acc with
  | nil => simp
  | cons c cs ih =>
    rw [List.foldl_cons]
    exact le_trans (by omega) (ih (acc * 16 + hexVal c))

theorem parseLoop_eq_ok (l : List Char) (acc : Nat) (hacc : acc < 2 ^ 128)
    (hall : ∀ c ∈ l, (hexDigitVal? c).isSome = true)
    (hlt : l.foldl (fun a c => a * 16 + hexVal c) acc < 2 ^ 128) :
    parseLoop l acc = .ok (l.foldl (fun a c => a * 16 + hexVal c) acc) := by
  induction l generalizing acc with
  | nil => rfl
  | cons c cs ih =>
    rw [List.foldl_cons] at hlt ⊢
    have hc : (hexDigitVal? c).isSome = true := hall c (by simp)
    obtain ⟨d, hd⟩ := Option.isSome_iff_exists.mp hc
    have hdval : hexVal c = d := by simp [hexVal, hd]
    have hstep : acc * 16 + d < 2 ^ 128 := by
      have hmono := le_foldl_parse cs (acc * 16 + hexVal c)
      omega
    have hg1 : ¬ 2 ^ 128 ≤ acc * 16 := by omega
    have hg2 : ¬ 2 ^ 128 ≤ acc * 16 + d := by omega
    rw [parseLoop]
    simp only [hd, if_neg hg1, if_neg hg2]
    rw [hdval] at hlt ⊢
    exact ih (acc * 16 + d) (by omega) (fun x hx => hall x (List.mem_cons_of_mem _ hx)) hlt

theorem parseLoop_isOk_iff (l : List Char) (acc : Nat) (hacc : acc < 2 ^ 128) :
    (parseLoop l acc).isOk = true ↔
      ((∀ c ∈ l, (hexDigitVal? c).isSome = true) ∧
        l.foldl (fun a c => a * 16 + hexVal c) acc < 2 ^ 128) := by
  induction l generalizing acc with
  | nil => simpa [parseLoop, Except.isOk, Except.toBool] using hacc
  | cons c cs ih =>
    rw [List.foldl_cons]
    by_cases hov : 2 ^ 128 ≤ acc * 16
    · rw [parseLoop]
      simp only [if_pos hov]
      constructor
      · intro h
        simp [Except.isOk, Except.toBool] at h
      · rintro ⟨_, hlt⟩
        have hmono := le_foldl_parse cs (acc * 16 + hexVal c)
        omega
    · cases hd : hexDigitVal? c with
      | none =>
        rw [parseLoop]
        simp only [if_neg hov, hd]
        constructor
        · intro h
          simp [Except.isOk, Except.toBool] at h
        · rintro ⟨hall, _⟩
          have := hall c (by simp)
          rw [hd] at this
          simp at this
      | some d =>
        have hdval : hexVal c = d := by simp [hexVal, hd]
        rw [parseLoop]
        simp only [if_neg hov, hd]
        by_cases hov2 : 2 ^ 128 ≤ acc * 16 + d
        · simp only [if_pos hov2]
          constructor
          · intro h
            simp [Except.isOk, Except.toBool] at h
          · rintro ⟨_, hlt⟩
            have hmono := le_foldl_parse cs (acc * 16 + hexVal c)
            omega
        · simp only [if_neg hov2]
          rw [ih (acc * 16 + d) (by omega), hdval]
          constructor
          · rintro ⟨h1, h2⟩
            refine ⟨?_, h2⟩
            intro x hx
            rcases List.mem_cons.mp hx with rfl | hx'
            · rw [hd]
              rfl
            · exact h1 x hx'
          · rintro ⟨h1, h2⟩
            exact ⟨fun x hx => h1 x (List.mem_cons_of_mem _ hx), h2⟩

/-- C5 (counterexample): `hex_to_long ""` fails even though the empty string
contains no non-hex-digit character, so failure is not exactly on inputs
containing a non-hex-digit. -/
theorem hex_to_long_empty_fails :
    (hex_to_long "").isOk = false ∧
      (("" : String).data.all fun c => (hexDigitVal? c).isSome) = true := by
  refine ⟨rfl, by decide⟩

/-- C5 (amended): `hex_to_long` succeeds exactly when, after stripping one
optional leading `+`, the remainder is a nonempty run of hex digits whose
value fits in 128 bits; it also fails on the empty string and on values of
`2 ^ 128` or more even though all their characters are hex digits. -/
theorem hex_to_long_isOk_iff (s : String) :
    (hex_to_long s).isOk = true ↔
      (stripLeadPlus s.data ≠ [] ∧
        (∀ c ∈ stripLeadPlus s.data, (hexDigitVal? c).isSome = true) ∧
        hexListVal (stripLeadPlus s.data) < 2 ^ 128) := by
  rw [hex_to_long]
  cases hsd : s.data with
  | nil => simp [hexToLongAux, stripLeadPlus, Except.isOk, Except.toBool]
  | cons c cs =>
    by_cases hc : c = '+'
    · subst hc
      cases cs with
      | nil => simp [hexToLongAux, stripLeadPlus, Except.isOk, Except.toBool]
      | cons c2 cs2 =>
        show (parseLoop (c2 :: cs2) 0).isOk = true ↔ _
        have hiff := parseLoop_isOk_iff (c2 :: cs2) 0 (by positivity)
        rw [hiff]
        simp [stripLeadPlus, hexListVal]
    · rw [hexToLongAux]
      simp only [if_neg hc]
      have hiff := parseLoop_isOk_iff (c :: cs) 0 (by positivity)
      rw [hiff]
      simp [stripLeadPlus, if_neg hc, hexListVal]

theorem toHexCore_eq_digits (fuel : Nat) :
    ∀ n ds, n ≠ 0 → n ≤ fuel →
      toHexCore fuel n ds = ((Nat.digits 16 n).map digitCharUpper).reverse ++ ds := by
  induction fuel with
  | zero =>
    intro n ds h0 hle
    omega
  | succ fuel ih =>
    intro n ds h0 hle
    have hdig : Nat.digits 16 n = n % 16 :: Nat.digits 16 (n / 16) :=
      Nat.digits_def' (by norm_num) (Nat.pos_of_ne_zero h0)
    rw [toHexCore]
    by_cases hq : n / 16 = 0
    · simp only [if_pos hq]
      rw [hdig, hq, Nat.digits_zero]
      simp
    · simp only [if_neg hq]
      have hlt : n / 16 ≤ fuel := by
        have := Nat.div_lt_self (Nat.pos_of_ne_zero h0) (by norm_num : 1 < 16)
        omega
      rw [ih (n / 16) (digitCharUpper (n % 16) :: ds) hq hlt, hdig]
      simp

theorem long_to_hex_eq_digits (n : Nat) (h0 : n ≠ 0) :
    long_to_hex n = String.mk (((Nat.digits 16 n).map digitCharUpper).reverse) := by
  unfold long_to_hex
  rw [toHexCore_eq_digits (n + 1) n [] h0 (by omega)]
  simp

theorem hexDigitVal?_digitCharUpper (n : Nat) (h : n < 16) :
    hexDigitVal? (digitCharUpper n) = some n := by
  interval_cases n <;> decide

theorem digitCharUpper_hexVal (c : Char) (h : isUpperHexDigit c) :
    digitCharUpper (hexVal c) = c := by
  have key : Char.ofNat c.toNat = c := Char.ofNat_toNat c
  rcases h with ⟨h1, h2⟩ | ⟨h1, h2⟩
  · have hv : hexVal c = c.toNat - 48 := by
      simp [hexVal, hexDigitVal?, h1, h2]
    rw [hv]
    unfold digitCharUpper
    rw [if_pos (by omega)]
    have he : 48 + (c.toNat - 48) = c.toNat := by omega
    rw [he, key]
  · have hno1 : ¬ (48 ≤ c.toNat ∧ c.toNat ≤ 57) := by omega
    have hno2 : ¬ (97 ≤ c.toNat ∧ c.toNat ≤ 102) := by omega
    have hv : hexVal c = c.toNat - 55 := by
      simp [hexVal, hexDigitVal?, hno1, hno2, h1, h2]
    rw [hv]
    unfold digitCharUpper
    rw [if_neg (by omega)]
    have he : 55 + (c.toNat - 55) = c.toNat := by omega
    rw [he, key]

theorem isUpperHexDigit_isSome (c : Char) (h : isUpperHexDigit c) :
    (hexDigitVal? c).isSome = true := by
  rcases h with ⟨h1, h2⟩ | ⟨h1, h2⟩
  · simp [hexDigitVal?, h1, h2]
  · have hno1 : ¬ (48 ≤ c.toNat ∧ c.toNat ≤ 57) := by omega
    have hno2 : ¬ (97 ≤ c.toNat ∧ c.toNat ≤ 102) := by omega
    simp [hexDigitVal?, hno1, hno2, h1, h2]

theorem foldl_parse_eq_ofDigits (l : List Char) :
    ∀ acc, l.foldl (fun a c => a * 16 + hexVal c) acc =
      Nat.ofDigits 16 ((l.map hexVal).reverse) + acc * 16 ^ l.length := by
  induction l with
  | nil =>
    intro acc
    simp
  | cons c cs ih =>
    intro acc
    rw [List.foldl_cons, ih (acc * 16 + hexVal c), List.map_cons, List.reverse_cons,
      Nat.ofDigits_append, Nat.ofDigits_singleton]
    simp only [List.length_reverse, List.length_map, List.length_cons]
    ring

theorem hexListVal_eq_ofDigits (l : List Char) :
    hexListVal l = Nat.ofDigits 16 ((l.map hexVal).reverse) := by
  unfold hexListVal
  rw [foldl_parse_eq_ofDigits]
  simp

/-- C4 (counterexample): for the nonempty even-length hex string `"00"` the
round trip drops a zero: parsing yields 0 and re-encoding yields `"0"`,
not `"00"`. -/
theorem hex_round_trip_counterexample :
    hex_to_long "00" = .ok 0 ∧ long_to_hex 0 = "0" ∧ ("0" : String) ≠ "00" := by
  refine ⟨by decide, by decide, by decide⟩

theorem hexVal_ne_zero_of_upper (c : Char) (h : isUpperHexDigit c)
    (hc0 : c ≠ '0') : hexVal c ≠ 0 := by
  rcases h with ⟨h1, h2⟩ | ⟨h1, h2⟩
  · have h48 : c.toNat ≠ 48 := by
      intro h48
      apply hc0
      have hkey := Char.ofNat_toNat c
      rw [h48] at hkey
      exact hkey.symm.trans rfl
    simp only [hexVal, hexDigitVal?, if_pos (And.intro h1 h2), Option.getD_some]
    omega
  · have hno1 : ¬ (48 ≤ c.toNat ∧ c.toNat ≤ 57) := by omega
    have hno2 : ¬ (97 ≤ c.toNat ∧ c.toNat ≤ 102) := by omega
    simp only [hexVal, hexDigitVal?, if_neg hno1, if_neg hno2,
      if_pos (And.intro h1 h2), Option.getD_some]
    omega

theorem hex_round_trip_list (c : Char) (rest : List Char)
    (hlen : rest.length + 1 ≤ 32)
    (hhex : ∀ x ∈ c :: rest, isUpperHexDigit x)
    (hc0 : c ≠ '0') :
    parseLoop (c :: rest) 0 = .ok (hexListVal (c :: rest)) ∧
      hexListVal (c :: rest) ≠ 0 ∧
      Nat.digits 16 (hexListVal (c :: rest)) = ((c :: rest).map hexVal).reverse := by
  have hshape : ((c :: rest).map hexVal).reverse
      = (rest.map hexVal).reverse ++ [hexVal c] := by
    simp
  have hlt16 : ∀ x ∈ (rest.map hexVal).reverse ++ [hexVal c], x < 16 := by
    intro x hx
    rcases List.mem_append.mp hx with hx' | hx'
    · rw [List.mem_reverse] at hx'
      obtain ⟨d, _, rfl⟩ := List.mem_map.mp hx'
      exact hexVal_lt_16 d
    · rw [List.mem_singleton.mp hx']
      exact hexVal_lt_16 c
  have hc_ne0 : hexVal c ≠ 0 :=
    hexVal_ne_zero_of_upper c (hhex c (by simp)) hc0
  have hlast : ∀ (h2 : (rest.map hexVal).reverse ++ [hexVal c] ≠ []),
      ((rest.map hexVal).reverse ++ [hexVal c]).getLast h2 ≠ 0 := by
    intro h2
    rw [List.getLast_concat]
    exact hc_ne0
  have hdig : Nat.digits 16 (hexListVal (c :: rest))
      = ((c :: rest).map hexVal).reverse := by
    rw [hexListVal_eq_ofDigits, hshape]
    exact Nat.digits_ofDigits 16 (by norm_num) _ hlt16 hlast
  have hbound : hexListVal (c :: rest) < 2 ^ 128 := by
    have h1 : hexListVal (c :: rest)
        < 16 ^ (((c :: rest).map hexVal).reverse).length := by
      rw [hexListVal_eq_ofDigits, hshape]
      exact Nat.ofDigits_lt_base_pow_length (by norm_num) hlt16
    have hlen2 : (((c :: rest).map hexVal).reverse).length = rest.length + 1 := by
      simp
    have h2 : (16 : Nat) ^ (((c :: rest).map hexVal).reverse).length
        ≤ 16 ^ 32 := by
      apply Nat.pow_le_pow_right (by norm_num)
      omega
    have h3 : (16 : Nat) ^ 32 = 2 ^ 128 := by norm_num
    omega
  refine ⟨?_, ?_, hdig⟩
  · rw [parseLoop_eq_ok (c :: rest) 0 (by positivity)
      (fun x hx => isUpperHexDigit_isSome x (hhex x hx)) hbound]
    rfl
  · intro h0
    rw [h0, Nat.digits_zero] at hdig
    rw [hshape] at hdig
    exact List.append_ne_nil_of_right_ne_nil _ (by simp) hdig.symm

/-- C4 (amended): the round trip holds for every nonempty even-length string
of uppercase hex digits of at most 32 characters (so the value fits in the
`u128` of `hex_to_long`) whose first character is not `0` (re-encoding drops
leading zeros): parsing with `hex_to_long` and re-encoding the value with
`long_to_hex` returns the original string. -/
theorem hex_round_trip (s : String) (hne : s.data ≠ [])
    (heven : s.length % 2 = 0) (hlen : s.length ≤ 32)
    (hhex : ∀ c ∈ s.data, isUpperHexDigit c)
    (hlead : s.data.head? ≠ some '0') :
    hex_to_long s = .ok (hexListVal s.data) ∧
      long_to_hex (hexListVal s.data) = s := by
  obtain ⟨c, rest, hsd⟩ : ∃ c rest, s.data = c :: rest := by
    cases hd : s.data with
    | nil => exact absurd hd hne
    | cons c rest => exact ⟨c, rest, rfl⟩
  have hc0 : c ≠ '0' := by
    intro hcc
    rw [hsd, hcc] at hlead
    simp at hlead
  have hlen' : rest.length + 1 ≤ 32 := by
    have : s.length = rest.length + 1 := by
      show s.data.length = rest.length + 1
      rw [hsd]
      rfl
    omega
  have hhex' : ∀ x ∈ c :: rest, isUpperHexDigit x := by
    intro x hx
    exact hhex x (by rw [hsd]; exact hx)
  obtain ⟨hparse, hne0, hdig⟩ := hex_round_trip_list c rest hlen' hhex' hc0
  rw [hsd]
  constructor
  · have hcplus : c ≠ '+' := by
      intro hcp
      rcases hhex' c (by simp) with ⟨h1, _⟩ | ⟨h1, _⟩ <;>
        rw [hcp] at h1 <;> simp at h1
    rw [hex_to_long, hsd, hexToLongAux]
    simp only [if_neg hcplus]
    exact hparse
  · rw [long_to_hex_eq_digits _ hne0, hdig, ← List.map_reverse,
      List.reverse_reverse, List.map_map]
    have hmap : (c :: rest).map (digitCharUpper ∘ hexVal) = c :: rest := by
      have hcg : ∀ x ∈ c :: rest, (digitCharUpper ∘ hexVal) x = id x := by
        intro x hx
        exact digitCharUpper_hexVal x (hhex' x hx)
      rw [List.map_congr_left hcg, List.map_id]
    rw [hmap, ← hsd]

/-- C4 (witness): the amended round trip at the concrete string `"8F"`. -/
theorem hex_round_trip_witness :
    hex_to_long "8F" = .ok (hexListVal "8F".data) ∧
      long_to_hex (hexListVal "8F".data) = "8F" :=
  hex_round_trip "8F" (by decide) (by decide) (by decide) (by decide) (by decide)

theorem toHexCore_chars (fuel : Nat) :
    ∀ n ds c, c ∈ toHexCore fuel n ds →
      (∃ m, m < 16 ∧ c = digitCharUpper m) ∨ c ∈ ds := by
  induction fuel with
  | zero =>
    intro n ds c hc
    exact Or.inr hc
  | succ fuel ih =>
    intro n ds c hc
    rw [toHexCore] at hc
    by_cases hq : n / 16 = 0
    · simp only [if_pos hq] at hc
      rcases List.mem_cons.mp hc with rfl | hc'
      · exact Or.inl ⟨n % 16, Nat.mod_lt _ (by norm_num), rfl⟩
      · exact Or.inr hc'
    · simp only [if_neg hq] at hc
      rcases ih (n / 16) (digitCharUpper (n % 16) :: ds) c hc with h | h
      · exact Or.inl h
      · rcases List.mem_cons.mp h with rfl | h'
        · exact Or.inl ⟨n % 16, Nat.mod_lt _ (by norm_num), rfl⟩
        · exact Or.inr h'

theorem long_to_hex_chars (n : Nat) :
    ∀ c ∈ (long_to_hex n).data, (hexDigitVal? c).isSome = true := by
  intro c hc
  have hc' : c ∈ toHexCore (n + 1) n [] := hc
  rcases toHexCore_chars (n + 1) n [] c hc' with ⟨m, hm, rfl⟩ | h
  · rw [hexDigitVal?_digitCharUpper m hm]
    rfl
  · simp at h

theorem padString_chars (h : String) (c : Char) (hc : c ∈ (padString h).data) :
    c = '0' ∨ c ∈ h.data := by
  unfold padString at hc
  split at hc
  · rw [String.data_append] at hc
    rcases List.mem_append.mp hc with h' | h'
    · left
      simpa using h'
    · exact Or.inr h'
  · split at hc
    · rw [String.data_append] at hc
      rcases List.mem_append.mp hc with h' | h'
      · left
        have : ("00" : String).data = ['0', '0'] := rfl
        rw [this] at h'
        rcases List.mem_cons.mp h' with rfl | h''
        · rfl
        · simpa using h''
      · exact Or.inr h'
    · exact Or.inr hc

theorem decodeHexChars_isOk : ∀ (l : List Char), l.length % 2 = 0 →
    (∀ c ∈ l, (hexDigitVal? c).isSome = true) →
    ∃ bs, decodeHexChars l = .ok bs
  | [], _, _ => ⟨[], rfl⟩
  | [a], heven, _ => by simp at heven
  | a :: b :: rest, heven, hall => by
    obtain ⟨da, hda⟩ := Option.isSome_iff_exists.mp (hall a (by simp))
    obtain ⟨db, hdb⟩ := Option.isSome_iff_exists.mp (hall b (by simp))
    have heven' : rest.length % 2 = 0 := by
      simp only [List.length_cons] at heven
      omega
    obtain ⟨bs, hbs⟩ := decodeHexChars_isOk rest heven'
      (fun c hc => hall c (by simp [hc]))
    refine ⟨(da * 16 + db) :: bs, ?_⟩
    rw [decodeHexChars]
    rw [hda, hdb, hbs]

theorem bigParseLoop_isOk (l : List Char) :
    ∀ acc, (∀ c ∈ l, (hexDigitVal? c).isSome = true) →
      ∃ v, bigParseLoop l acc = .ok v := by
  induction l with
  | nil =>
    intro acc _
    exact ⟨acc, rfl⟩
  | cons c cs ih =>
    intro acc hall
    obtain ⟨d, hd⟩ := Option.isSome_iff_exists.mp (hall c (by simp))
    obtain ⟨v, hv⟩ := ih (acc * 16 + d) (fun x hx => hall x (by simp [hx]))
    refine ⟨v, ?_⟩
    rw [bigParseLoop]
    simp only [hd]
    exact hv

theorem encode_upper_chars (bytes : List Nat) (hb : ∀ b ∈ bytes, b < 256) :
    ∀ c ∈ (encode_upper bytes).data, (hexDigitVal? c).isSome = true := by
  intro c hc
  have hc' : c ∈ (bytes.map byteToHexUpper).flatten := hc
  rw [List.mem_flatten] at hc'
  obtain ⟨l, hl, hcl⟩ := hc'
  obtain ⟨b, hbmem, rfl⟩ := List.mem_map.mp hl
  have hblt := hb b hbmem
  rcases List.mem_cons.mp hcl with rfl | hcl'
  · rw [hexDigitVal?_digitCharUpper _ (by omega)]
    rfl
  · rcases List.mem_cons.mp hcl' with rfl | hcl''
    · rw [hexDigitVal?_digitCharUpper _ (Nat.mod_lt _ (by norm_num))]
      rfl
    · simp at hcl''

theorem encode_upper_data_length (bytes : List Nat) :
    (encode_upper bytes).data.length = 2 * bytes.length := by
  show ((bytes.map byteToHexUpper).flatten).length = _
  induction bytes with
  | nil => rfl
  | cons b bs ih =>
    rw [List.map_cons, List.flatten_cons, List.length_append, ih]
    show 2 + 2 * bs.length = 2 * (bs.length + 1)
    omega

theorem stripLeadPlus_eq_self (l : List Char)
    (h : ∀ c ∈ l, (hexDigitVal? c).isSome = true) : stripLeadPlus l = l := by
  cases l with
  | nil => rfl
  | cons c cs =>
    have hc := h c (by simp)
    have hne : c ≠ '+' := by
      intro hcp
      rw [hcp] at hc
      exact absurd hc (by decide)
    simp [stripLeadPlus, hne]

theorem biguint_from_str_radix_isOk (s : String) (hne : s.data ≠ [])
    (hall : ∀ c ∈ s.data, (hexDigitVal? c).isSome = true) :
    ∃ v, biguint_from_str_radix s = .ok v := by
  unfold biguint_from_str_radix
  rw [stripLeadPlus_eq_self s.data hall]
  rw [if_neg (by simpa [List.isEmpty_iff] using hne)]
  exact bigParseLoop_isOk s.data 0 hall

/-- C8: `calculate_u` is total and never errs — for all inputs the
concatenation of the two padded hex strings is valid even-length hex, the
hex-encoded SHA-256 digest always re-parses as a big integer, and the
result is `Ok` (no zero check of any kind is performed). -/
theorem calculate_u_isOk (sha : List Nat → List Nat)
    (hsha : ∀ buf, (sha buf).length = 32 ∧ ∀ x ∈ sha buf, x < 256)
    (big_a big_b : Nat) :
    (calculate_u sha big_a big_b).isOk = true := by
  have heven : (pad_hex (.long big_a) ++ pad_hex (.long big_b)).data.length % 2
      = 0 := by
    rw [String.data_append, List.length_append]
    have h1 := padString_length_even (long_to_hex big_a)
    have h2 := padString_length_even (long_to_hex big_b)
    have e1 : (pad_hex (.long big_a)).data.length = (pad_hex (.long big_a)).length := rfl
    have e2 : (pad_hex (.long big_b)).data.length = (pad_hex (.long big_b)).length := rfl
    have e3 : pad_hex (.long big_a) = padString (long_to_hex big_a) := rfl
    have e4 : pad_hex (.long big_b) = padString (long_to_hex big_b) := rfl
    rw [e1, e2, e3, e4]
    omega
  have hallhex : ∀ c ∈ (pad_hex (.long big_a) ++ pad_hex (.long big_b)).data,
      (hexDigitVal? c).isSome = true := by
    intro c hc
    rw [String.data_append] at hc
    rcases List.mem_append.mp hc with h | h
    · rcases padString_chars _ c h with rfl | h'
      · decide
      · exact long_to_hex_chars big_a c h'
    · rcases padString_chars _ c h with rfl | h'
      · decide
      · exact long_to_hex_chars big_b c h'
  obtain ⟨bs, hbs⟩ := decodeHexChars_isOk _ heven hallhex
  unfold calculate_u hex_hash
  rw [hbs]
  show (biguint_from_str_radix (hash_sha256 sha bs)).isOk = true
  have hdata_ne : (hash_sha256 sha bs).data ≠ [] := by
    have hl : (encode_upper (sha bs)).data.length = 2 * (sha bs).length :=
      encode_upper_data_length _
    rw [(hsha bs).1] at hl
    intro hnil
    have : (hash_sha256 sha bs).data = (encode_upper (sha bs)).data := rfl
    rw [this] at hnil
    rw [hnil] at hl
    simp at hl
  have hall2 : ∀ c ∈ (hash_sha256 sha bs).data, (hexDigitVal? c).isSome = true :=
    encode_upper_chars (sha bs) (hsha bs).2
  obtain ⟨v, hv⟩ := biguint_from_str_radix_isOk _ hdata_ne hall2
  rw [hv]
  rfl

/-- C8 (witness): `calculate_u` succeeds at the concrete inputs `A = B = 0`
with a digest primitive producing 32 zero bytes. -/
theorem calculate_u_isOk_witness :
    (calculate_u (fun _ => List.replicate 32 0) 0 0).isOk = true :=
  calculate_u_isOk (fun _ => List.replicate 32 0)
    (fun _ => ⟨by simp, fun x hx => by rw [List.eq_of_mem_replicate hx]; omega⟩)
    0 0

/-- C3: `compute_hkdf` equals HKDF with HMAC-SHA256 as the spec words it —
extract keyed by the salt over the ikm, then a single expand whose info is
`"Caldera Derived Key"` followed by the counter byte `0x01`, truncated to
exactly 16 bytes — and it is deterministic in `(ikm, salt)`. -/
theorem compute_hkdf_eq_spec (hmac : List Nat → List Nat → List Nat)
    (h32 : ∀ k m, (hmac k m).length = 32) (ikm salt : List Nat) :
    compute_hkdf hmac ikm salt = some (hkdfSpecDescription hmac ikm salt) ∧
      (hkdfSpecDescription hmac ikm salt).length = 16 ∧
      ∀ ikm2 salt2, ikm2 = ikm → salt2 = salt →
        compute_hkdf hmac ikm2 salt2 = compute_hkdf hmac ikm salt := by
  refine ⟨?_, ?_, ?_⟩
  · show (hkdfExpand hmac (hmac salt ikm) (INFO_BITS ++ [1]) 16).toOption = _
    rw [hkdfExpand, if_neg (by norm_num)]
    have h47 : (16 + 31) / 32 = 1 := by norm_num
    rw [h47]
    simp [hkdfBlocks, hkdfSpecDescription, INFO_BITS, Except.toOption]
  · rw [hkdfSpecDescription, List.length_take, h32]
    rfl
  · intro ikm2 salt2 h1 h2
    rw [h1, h2]

/-- C3 (witness): the equality at a concrete HMAC primitive (32 zero bytes)
and concrete empty `ikm`, `salt`. -/
theorem compute_hkdf_eq_spec_witness :
    compute_hkdf (fun _ _ => List.replicate 32 0) [] [] =
        some (hkdfSpecDescription (fun _ _ => List.replicate 32 0) [] []) ∧
      (hkdfSpecDescription (fun _ _ => List.replicate 32 0) [] []).length = 16 ∧
      ∀ ikm2 salt2, ikm2 = ([] : List Nat) → salt2 = ([] : List Nat) →
        compute_hkdf (fun _ _ => List.replicate 32 0) ikm2 salt2 =
          compute_hkdf (fun _ _ => List.replicate 32 0) [] [] :=
  compute_hkdf_eq_spec (fun _ _ => List.replicate 32 0) (fun _ _ => by simp) [] []

/-- C9: `compute_hkdf` never panics — the error branch of the unwrapped
`expand` call is unreachable, because the requested 16-byte output is within
HKDF-SHA256's limit of 255 blocks of 32 bytes. -/
theorem compute_hkdf_isSome (hmac : List Nat → List Nat → List Nat)
    (ikm salt : List Nat) : (compute_hkdf hmac ikm salt).isSome = true := by
  show ((hkdfExpand hmac (hmac salt ikm) (INFO_BITS ++ [1]) 16).toOption).isSome = true
  rw [hkdfExpand, if_neg (by norm_num)]
  rfl

/-- C2: whenever the server value `B` satisfies `B ≡ 0 (mod N)`, or the
scrambling value `u` is zero, `computeS` fails with `ProtocolError` and the
shared secret is never computed. -/
theorem computeS_zero_rejected (B k g x a u N : Nat)
    (h : B % N = 0 ∨ u = 0) :
    computeS B k g x a u N = .error .protocolError := by
  unfold computeS
  rcases h with h | h
  · rw [if_pos h]
  · by_cases hB : B % N = 0
    · rw [if_pos hB]
    · rw [if_neg hB, if_pos h]

/-- C2 (witness): the rejection at concrete inputs with `B = 0`, `N = 7`. -/
theorem computeS_zero_rejected_witness :
    computeS 0 1 2 3 4 5 7 = .error .protocolError :=
  computeS_zero_rejected 0 1 2 3 4 5 7 (Or.inl (by decide))

end AwsSrp
